import Mathlib

/-!
Verification development for the static SSR rendering core
(packages/solid/src/static/rendering.ts): hierarchical hydration ids,
Suspense fan-in completion tracking, placeholder-token emission and the
driver's string-substitution pass.

Strings are modelled as lists of characters; the process-wide mutable
state of the source (sharedConfig.context, per-boundary SuspenseContext
values, the driver registry) is modelled by explicit state passing and
by step relations on explicit state types.
-/

/-- Character class of the SUSPENSE_REPLACE pattern (rendering.ts line 364):
a placeholder id character is a decimal digit or a dot. -/
def isIdChar (c : Char) : Bool := c.isDigit || c == '.'

/-- Decimal digit character, as produced by JavaScript number-to-string
coercion of a single digit. -/
def digChar (d : ℕ) : Char := Char.ofNat (48 + d)

/-- Fuel-driven decimal expansion of a natural number (most significant
digit first), mirroring JavaScript template-literal coercion of counters. -/
def natToDecAux : ℕ → ℕ → List Char
  | 0, _ => []
  | Nat.succ f, n => if n < 10 then [digChar n] else natToDecAux f (n / 10) ++ [digChar (n % 10)]

/-- Decimal string of a natural number, as a character list. -/
def natToDec (n : ℕ) : List Char := natToDecAux (n + 1) n

/-- Decidable string-prefix test on character lists. -/
def strPre : List Char → List Char → Bool
  | [], _ => true
  | _ :: _, [] => false
  | a :: u, b :: v => a == b && strPre u v

/-- Rendered output values consumed by resolveSSRNode (rendering.ts lines
11-19): strings, null, booleans, arrays, objects carrying a t field, and
thunks (modelled as wrapped values, since the source only ever applies them
to no arguments). Numeric leaves of the String(node) catch-all are not
needed by any claim and are omitted. -/
inductive SSRNode where
  | str : String → SSRNode
  | null : SSRNode
  | boolean : Bool → SSRNode
  | arr : List SSRNode → SSRNode
  | obj : SSRNode → SSRNode
  | thunk : SSRNode → SSRNode

mutual
/-- Model of resolveSSRNode (rendering.ts lines 11-19). -/
def resolveSSRNode : SSRNode → String
  | SSRNode.str s => s
  | SSRNode.null => ""
  | SSRNode.boolean _ => ""
  | SSRNode.arr l => resolveSSRNodeList l
  | SSRNode.obj t => resolveSSRNode t
  | SSRNode.thunk b => resolveSSRNode b
/-- Join of resolveSSRNode over an array (node.map(resolveSSRNode).join("")). -/
def resolveSSRNodeList : List SSRNode → String
  | [] => ""
  | n :: r => resolveSSRNode n ++ resolveSSRNodeList r
end

/-- Model of the HydrationContext record (rendering.ts lines 300-308).
The shared stores (resources, suspense) and the writeResource sink are
modelled separately by the resource / boundary state machines below, so
only the per-context value fields appear here. -/
structure HydrationContext where
  id : List Char
  count : ℕ
  async : Bool
  streaming : Bool
deriving DecidableEq

/-- Model of nextHydrateContext (rendering.ts lines 30-38) on an active
context. The source mutates the parent in place through count++; here the
pair (child, mutated parent) is returned explicitly. -/
def nextHydrateContext (c : HydrationContext) : HydrationContext × HydrationContext :=
  (⟨c.id ++ natToDec c.count ++ ['.'], 0, c.async, c.streaming⟩,
   ⟨c.id, c.count + 1, c.async, c.streaming⟩)

/-- Parent context after k child spawns: each spawn increments count once. -/
def spawnParent (p : HydrationContext) : ℕ → HydrationContext
  | 0 => p
  | Nat.succ k => (nextHydrateContext (spawnParent p k)).2

/-- Id generated for the k-th sibling child spawned from context p. -/
def childId (p : HydrationContext) (k : ℕ) : List Char :=
  (nextHydrateContext (spawnParent p k)).1.id

/-- Model of createComponent (rendering.ts lines 40-52). The component is
a state-passing function on the process-wide active-context slot
(sharedConfig.context) that either returns a value or throws; the slot it
leaves behind is returned in both cases. On a normal return the source
restores the saved context object c, whose count was already incremented
in place by nextHydrateContext, hence the restored value is the mutated
parent. On a throw there is no try/finally in the source, so the slot is
left exactly as the component left it. -/
def createComponent {α : Type}
    (Comp : Option HydrationContext → Except String α × Option HydrationContext)
    (slot : Option HydrationContext) : Except String α × Option HydrationContext :=
  match slot with
  | some c =>
    match Comp (some (nextHydrateContext c).1) with
    | (Except.ok r, _) => (Except.ok r, some (nextHydrateContext c).2)
    | (Except.error e, slotAfter) => (Except.error e, slotAfter)
  | none => Comp none

/-- Component that throws immediately, leaving the slot untouched. -/
def boomComp : Option HydrationContext → Except String Unit × Option HydrationContext :=
  fun s => (Except.error "boom", s)

/-- Characters of the string "undefined", the JavaScript coercion of a
missing cache entry concatenated onto a string. -/
def undefChars : List Char := ['u', 'n', 'd', 'e', 'f', 'i', 'n', 'e', 'd']

/-- Literal character form of a placeholder token for a boundary id
(rendering.ts line 361). -/
def tokChars (id : List Char) : List Char := '<' :: '#' :: (id ++ ['#', '>'])

/-- Attempted match of the SUSPENSE_REPLACE pattern at the head of a
string: the literal pair < # followed by a maximal nonempty run of id
characters (the greedy group), followed by the literal pair # >. Returns
the captured id and the remainder after the match. -/
def matchAt (s : List Char) : Option (List Char × List Char) :=
  match s with
  | a :: b :: rest =>
    if a = '<' ∧ b = '#' ∧ rest.takeWhile isIdChar ≠ [] then
      match rest.dropWhile isIdChar with
      | c :: d :: r2 => if c = '#' ∧ d = '>' then some (rest.takeWhile isIdChar, r2) else none
      | _ => none
    else none
  | _ => none

/-- Leftmost match of the SUSPENSE_REPLACE pattern (source.match in
rendering.ts line 385): returns (text before the match, captured id,
text after the match). -/
def findTok : List Char → Option (List Char × List Char × List Char)
  | [] => none
  | c :: cs =>
    match matchAt (c :: cs) with
    | some (id, rest) => some ([], id, rest)
    | none =>
      match findTok cs with
      | some (pre, id, rest) => some (c :: pre, id, rest)
      | none => none

/-- Association lookup in a cache presented as a key-value list. -/
def assocFind {α : Type} : List (List Char × α) → List Char → Option α
  | [], _ => none
  | p :: r, id => if p.1 = id then some p.2 else assocFind r id

/-- Value spliced in for a matched id (rendering.ts line 387):
cache[match[1]] when the id is present, and otherwise the string
"undefined", since a missing property coerces to "undefined" under
string concatenation. -/
def cacheGet (cache : List (List Char × List Char)) (id : List Char) : List Char :=
  match assocFind cache id with
  | some v => v
  | none => undefChars

/-- Fuel-indexed model of the driver's substitution loop (rendering.ts
lines 384-389): while a token matches, move the text before the match to
final and splice the cached fragment in front of the remainder; when no
token matches, resolve with final ++ source. Fuel exhaustion returns none,
so a run of the source loop that never exits is modelled by the loop
returning none at every fuel. -/
def substLoop (cache : List (List Char × List Char)) : ℕ → List Char → List Char → Option (List Char)
  | 0, _, _ => none
  | Nat.succ n, final, source =>
    match findTok source with
    | none => some (final ++ source)
    | some (pre, id, rest) => substLoop cache n (final ++ pre) (cacheGet cache id ++ rest)

/-- Termination of the substitution pass on a root string: some fuel
suffices for the loop to exit. -/
def substTerminates (cache : List (List Char × List Char)) (source : List Char) : Prop :=
  ∃ fuel out, substLoop cache fuel [] source = some out

/-- Segment of well-formed rendered markup: a literal run of characters or
a whole placeholder token. -/
inductive Seg where
  | lit : List Char → Seg
  | tok : List Char → Seg
deriving DecidableEq

/-- Flattening of a segment list to the character string it denotes. -/
def flat : List Seg → List Char
  | [] => []
  | Seg.lit s :: r => s ++ flat r
  | Seg.tok id :: r => tokChars id ++ flat r

/-- Token ids occurring in a segment list, in order. -/
def toks : List Seg → List (List Char)
  | [] => []
  | Seg.lit _ :: r => toks r
  | Seg.tok id :: r => id :: toks r

/-- Well-formedness of one segment: literals contain no opening angle
bracket (so no token can start inside or across a literal), and token ids
are nonempty runs of id characters. -/
def segWF : Seg → Prop
  | Seg.lit s => ∀ c ∈ s, c ≠ '<'
  | Seg.tok id => id ≠ [] ∧ ∀ c ∈ id, isIdChar c = true

instance : DecidablePred segWF := fun g =>
  match g with
  | Seg.lit s => inferInstanceAs (Decidable (∀ c ∈ s, c ≠ '<'))
  | Seg.tok id => inferInstanceAs (Decidable (id ≠ [] ∧ ∀ c ∈ id, isIdChar c = true))

/-- Well-formedness of a segment list. -/
def wfL (L : List Seg) : Prop := ∀ g ∈ L, segWF g

instance (L : List Seg) : Decidable (wfL L) :=
  inferInstanceAs (Decidable (∀ g ∈ L, segWF g))

/-- Decomposition of a segment list at its first token. -/
def splitFirstTok : List Seg → Option (List Seg × List Char × List Seg)
  | [] => none
  | Seg.lit s :: r =>
    match splitFirstTok r with
    | some (P, id, R) => some (Seg.lit s :: P, id, R)
    | none => none
  | Seg.tok id :: r => some ([], id, r)

/-- Segment-level cache entry for an id: the cached fragment when present,
and the literal text "undefined" when the id was never registered. -/
def lookupC (C : List (List Char × List Seg)) (id : List Char) : List Seg :=
  match assocFind C id with
  | some F => F
  | none => [Seg.lit undefChars]

/-- String-level cache corresponding to a segment-level cache. -/
def cacheOf (C : List (List Char × List Seg)) : List (List Char × List Char) :=
  C.map (fun p => (p.1, flat p.2))

/-- Expansion of a segment list following the specification of the
substitution pass: each token is replaced, transitively, by the expansion
of its cached fragment, left to right. This definition follows the words
of the specification (§4.5 step 4 and §8 round-trip / transitive
substitution properties) and is the reference against which the loop of
substLoop is compared; the fuel argument bounds the nesting depth of
token replacement and is irrelevant once it exceeds every rank. -/
def specExpand (C : List (List Char × List Seg)) : ℕ → List Seg → List Char
  | _, [] => []
  | n, Seg.lit s :: r => s ++ specExpand C n r
  | 0, Seg.tok id :: r => tokChars id ++ specExpand C 0 r
  | Nat.succ n, Seg.tok id :: r => specExpand C n (lookupC C id) ++ specExpand C (n + 1) r
termination_by n L => (n, L.length)

/-- Weight of a segment list under a rank function: the termination
measure of the substitution loop. -/
def wt (rk : List Char → ℕ) (B : ℕ) (L : List Seg) : ℕ :=
  ((toks L).map (fun id => (B + 1) ^ rk id)).sum

/-- Outcome of one invocation of the Suspense component (rendering.ts
lines 326-362) for a fresh boundary. -/
structure SuspenseResult where
  output : SSRNode
  childrenEvaluated : Bool
  doneSignal : Option (Option String)

/-- Model of Suspense (rendering.ts lines 326-362) for a boundary whose
initial child render produces childOut and registers regs resource ids
into the boundary's resources set (completedCount starts at 0 for a fresh
boundary). The streaming branch at line 329 evaluates the children
regardless of async mode; the non-async branch at line 330 returns the
fallback; the async path renders the children once, fires the done signal
when nothing registered, and otherwise returns the placeholder-token
object built from the boundary id ctx.id + ctx.count (line 332, no
increment, no trailing dot). doneSignal records whether and with which
argument the driver callback was invoked synchronously. -/
def Suspense (ctx : HydrationContext) (fallback : String) (childOut : SSRNode)
    (regs : ℕ) : SuspenseResult :=
  if ctx.async = false then
    { output := SSRNode.str fallback, childrenEvaluated := ctx.streaming, doneSignal := none }
  else
    if regs = 0 then
      { output := childOut, childrenEvaluated := true, doneSignal := some none }
    else
      { output := SSRNode.obj (SSRNode.str (String.mk (tokChars (ctx.id ++ natToDec ctx.count)))),
        childrenEvaluated := true, doneSignal := none }

/-- Synchronous outcome of the driver entry point. -/
inductive DriverOutcome where
  | resolvedNow : SSRNode → DriverOutcome
  | pending : List (List Char) → DriverOutcome

/-- One synchronous run of the driver's thunk: the value it returned and
the boundary ids it registered into the registry while running. -/
structure DriverRun where
  output : SSRNode
  registered : List (List Char)

/-- Model of the synchronous phase of awaitSuspense (rendering.ts lines
365-374): run the thunk once; if the registry stayed empty, resolve at
once with the raw value res() the thunk returned; otherwise the promise
stays pending on the registered boundaries. -/
def awaitSuspenseSync (run : DriverRun) : DriverOutcome :=
  if run.registered = [] then DriverOutcome.resolvedNow run.output
  else DriverOutcome.pending run.registered

/-- State of one Suspense boundary (SuspenseContextValue, rendering.ts
lines 310-314), extended with instrumentation counting how many times the
completed callback ran and how many times the done signal fired. Resource
ids are abstracted to naturals (the source keys both sets by strings).
resolvedIds models the ids already stored in ctx.resources. -/
structure BoundaryState where
  completedCount : ℕ
  resources : Finset ℕ
  resolvedIds : Finset ℕ
  doneCount : ℕ
  completedCalls : ℕ
deriving DecidableEq

/-- Resolution event: resource i settles, and the re-render performed by
the completed callback (if the fan-in condition held) registers newRegs
into the boundary's resources set. -/
structure BEvent where
  i : ℕ
  newRegs : Finset ℕ

/-- Boundary state after Suspense first renders its children (rendering.ts
lines 335-360): fresh counters, the initially registered resources, and
the line-357 check that fires done() at once when nothing registered. -/
def initBoundary (regs : Finset ℕ) : BoundaryState :=
  { completedCount := 0, resources := regs, resolvedIds := ∅,
    doneCount := if 0 = regs.card then 1 else 0, completedCalls := 0 }

/-- Resolution of resource i under the boundary (the p.then handler of
load, rendering.ts lines 253-260, and the completed callback installed by
Suspense, lines 338-343): store the value, increment completedCount, and
when it equals resources.size invoke completed, which re-renders the
children (registering newRegs) and fires done when the fan-in condition
still holds after the re-render. -/
def resolveStep (s : BoundaryState) (i : ℕ) (newRegs : Finset ℕ) : BoundaryState :=
  if s.completedCount + 1 = s.resources.card then
    if s.completedCount + 1 = (s.resources ∪ newRegs).card then
      { completedCount := s.completedCount + 1, resources := s.resources ∪ newRegs,
        resolvedIds := insert i s.resolvedIds, doneCount := s.doneCount + 1,
        completedCalls := s.completedCalls + 1 }
    else
      { completedCount := s.completedCount + 1, resources := s.resources ∪ newRegs,
        resolvedIds := insert i s.resolvedIds, doneCount := s.doneCount,
        completedCalls := s.completedCalls + 1 }
  else
    { completedCount := s.completedCount + 1, resources := s.resources,
      resolvedIds := insert i s.resolvedIds, doneCount := s.doneCount,
      completedCalls := s.completedCalls }

/-- Boundary state after a sequence of resolution events. -/
def runTrace (s : BoundaryState) (evs : List BEvent) : BoundaryState :=
  evs.foldl (fun t e => resolveStep t e.i e.newRegs) s

/-- Validity of one resolution event: the settling resource is registered
and not yet resolved, and a read during the re-render registers an id only
if that id is not in ctx.resources — the settling id was stored at line
254 before completed ran, so it cannot re-register either. -/
def validEvent (s : BoundaryState) (e : BEvent) : Prop :=
  e.i ∈ s.resources ∧ e.i ∉ s.resolvedIds ∧ ∀ j ∈ e.newRegs, j ∉ insert e.i s.resolvedIds

instance (s : BoundaryState) (e : BEvent) : Decidable (validEvent s e) :=
  inferInstanceAs (Decidable (_ ∧ _ ∧ _))

/-- Validity of a whole resolution trace. -/
def validTrace : BoundaryState → List BEvent → Prop
  | _, [] => True
  | s, e :: es => validEvent s e ∧ validTrace (resolveStep s e.i e.newRegs) es

instance validTraceDec : (s : BoundaryState) → (evs : List BEvent) → Decidable (validTrace s evs)
  | _, [] => Decidable.isTrue trivial
  | s, e :: es => @instDecidableAnd _ _ inferInstance (validTraceDec (resolveStep s e.i e.newRegs) es)

/-- Inductive invariant of the boundary state machine. -/
def BInv (s : BoundaryState) : Prop :=
  s.resolvedIds ⊆ s.resources ∧ s.completedCount = s.resolvedIds.card ∧
  s.doneCount ≤ 1 ∧ (s.doneCount = 1 ↔ s.completedCount = s.resources.card)

/-- Number of events of a trace at which the incremented completedCount
equals the current resources.size — the resolutions at which the source
invokes the completed callback. -/
def countFire : BoundaryState → List BEvent → ℕ
  | _, [] => 0
  | s, e :: es =>
    (if s.completedCount + 1 = s.resources.card then 1 else 0) +
      countFire (resolveStep s e.i e.newRegs) es

/-- Observable state of one createResource reader (rendering.ts lines
222-266): the public loading flag (line 238) and whether the resolved
value has been written to the context's resource store (line 254). -/
structure ResourceState where
  loading : Bool
  stored : Bool
deriving DecidableEq

/-- Reader state just after createResource returns: loading starts false. -/
def createResourceInit : ResourceState := { loading := false, stored := false }

/-- Events touching a reader's state: a load(fn) call under given render
flags with the id possibly already resolved in the store, and the
asynchronous settling of the producer (the p.then handler). -/
inductive ResEvent where
  | load : Bool → Bool → Bool → ResEvent
  | settle : ResEvent

/-- Effect of one event on the reader state (load: rendering.ts lines
239-246; settle: line 254). A load in a pass that is neither async nor
streaming returns the no-op thenable; a load whose id is already resolved
short-circuits; any other load sets loading to true before invoking the
producer. Settling stores the value and does not touch loading. -/
def resStep : ResourceState → ResEvent → ResourceState
  | r, ResEvent.load a s rv =>
    if a = false ∧ s = false then r
    else if rv = true then r
    else { r with loading := true }
  | r, ResEvent.settle => { r with stored := true }

/-- Reader state after a sequence of events. -/
def resRun (r : ResourceState) (evs : List ResEvent) : ResourceState :=
  evs.foldl resStep r

/-- Value of a decimal digit string, used to invert natToDec. -/
def decVal (l : List Char) : ℕ := l.foldl (fun a c => 10 * a + (c.toNat - 48)) 0

lemma digChar_isDigit {d : ℕ} (h : d < 10) : (digChar d).isDigit = true := by
  interval_cases d <;> decide

lemma digChar_toNat {d : ℕ} (h : d < 10) : (digChar d).toNat = 48 + d := by
  interval_cases d <;> decide

lemma natToDecAux_fuel : ∀ f g n, n < f → n < g → natToDecAux f n = natToDecAux g n := by
  intro f
  induction f with
  | zero => intro g n h _; omega
  | succ f ih =>
    intro g n hf hg
    cases g with
    | zero => omega
    | succ g =>
      by_cases h10 : n < 10
      · simp [natToDecAux, h10]
      · have hd : n / 10 < n := Nat.div_lt_self (by omega) (by omega)
        simp only [natToDecAux, if_neg h10]
        rw [ih g (n / 10) (by omega) (by omega)]

lemma natToDec_lt10 {n : ℕ} (h : n < 10) : natToDec n = [digChar n] := by
  simp [natToDec, natToDecAux, h]

lemma natToDec_ge10 {n : ℕ} (h : 10 ≤ n) : natToDec n = natToDec (n / 10) ++ [digChar (n % 10)] := by
  have hd : n / 10 < n := Nat.div_lt_self (by omega) (by omega)
  have h1 : natToDec n = natToDecAux n (n / 10) ++ [digChar (n % 10)] := by
    show natToDecAux (n + 1) n = _
    simp only [natToDecAux, if_neg (by omega : ¬ n < 10)]
  rw [h1]
  congr 1
  show natToDecAux n (n / 10) = natToDecAux (n / 10 + 1) (n / 10)
  exact natToDecAux_fuel n (n / 10 + 1) (n / 10) (by omega) (by omega)

lemma natToDec_digits : ∀ n, ∀ c ∈ natToDec n, c.isDigit = true := by
  intro n
  induction n using Nat.strong_induction_on with
  | _ n ih =>
    by_cases h : n < 10
    · rw [natToDec_lt10 h]
      intro c hc
      simp at hc
      subst hc
      exact digChar_isDigit h
    · rw [natToDec_ge10 (by omega)]
      intro c hc
      rcases List.mem_append.1 hc with h1 | h2
      · exact ih (n / 10) (Nat.div_lt_self (by omega) (by omega)) c h1
      · simp at h2
        subst h2
        exact digChar_isDigit (Nat.mod_lt _ (by omega))

lemma natToDec_ne_nil (n : ℕ) : natToDec n ≠ [] := by
  by_cases h : n < 10
  · rw [natToDec_lt10 h]; simp
  · rw [natToDec_ge10 (by omega)]; simp

lemma decVal_gen : ∀ n a, List.foldl (fun a c => 10 * a + (c.toNat - 48)) a (natToDec n) =
    a * 10 ^ (natToDec n).length + n := by
  intro n
  induction n using Nat.strong_induction_on with
  | _ n ih =>
    intro a
    by_cases h : n < 10
    · rw [natToDec_lt10 h]
      simp [List.foldl, digChar_toNat h]
      omega
    · rw [natToDec_ge10 (by omega)]
      rw [List.foldl_append]
      rw [ih (n / 10) (Nat.div_lt_self (by omega) (by omega)) a]
      have hm : (digChar (n % 10)).toNat - 48 = n % 10 := by
        rw [digChar_toNat (Nat.mod_lt _ (by omega))]
        omega
      simp only [List.foldl, hm, List.length_append, List.length_cons, List.length_nil]
      have : 10 * (a * 10 ^ (natToDec (n / 10)).length + n / 10) + n % 10 =
          a * (10 ^ (natToDec (n / 10)).length * 10) + (10 * (n / 10) + n % 10) := by ring
      rw [this, Nat.div_add_mod, ← pow_succ]

lemma natToDec_inj {a b : ℕ} (h : natToDec a = natToDec b) : a = b := by
  have ha := decVal_gen a 0
  have hb := decVal_gen b 0
  rw [h] at ha
  simp at ha hb
  omega

lemma strPre_refl : ∀ l : List Char, strPre l l = true := by
  intro l
  induction l with
  | nil => rfl
  | cons a t ih => simp [strPre, ih]

lemma strPre_cancel : ∀ x u v : List Char, strPre (x ++ u) (x ++ v) = strPre u v := by
  intro x
  induction x with
  | nil => intro u v; rfl
  | cons a t ih => intro u v; simp [strPre, ih]

lemma no_pre_dot : ∀ u v : List Char, (∀ c ∈ u, c.isDigit = true) → (∀ c ∈ v, c.isDigit = true) →
    strPre (u ++ ['.']) (v ++ ['.']) = true → u = v := by
  intro u
  induction u with
  | nil =>
    intro v _ hv h
    cases v with
    | nil => rfl
    | cons b v' =>
      exfalso
      simp only [List.nil_append, List.cons_append, strPre, Bool.and_eq_true, beq_iff_eq] at h
      have hb := hv b (List.mem_cons_self b v')
      rw [← h.1] at hb
      exact absurd hb (by decide)
  | cons a u' ih =>
    intro v hu hv h
    cases v with
    | nil =>
      exfalso
      cases u' <;> simp [strPre] at h
    | cons b v' =>
      simp only [List.cons_append, strPre, Bool.and_eq_true, beq_iff_eq] at h
      obtain ⟨hab, h2⟩ := h
      subst hab
      have := ih v' (fun c hc => hu c (List.mem_cons_of_mem _ hc))
        (fun c hc => hv c (List.mem_cons_of_mem _ hc)) h2
      rw [this]

lemma spawnParent_eq (p : HydrationContext) :
    ∀ k, spawnParent p k = ⟨p.id, p.count + k, p.async, p.streaming⟩ := by
  intro k
  induction k with
  | zero => simp [spawnParent]
  | succ k ih =>
    simp [spawnParent, ih, nextHydrateContext]
    omega

lemma childId_eq (p : HydrationContext) (k : ℕ) :
    childId p k = p.id ++ (natToDec (p.count + k) ++ ['.']) := by
  simp [childId, spawnParent_eq, nextHydrateContext, List.append_assoc]

/-- C3: a child context's id is parent.id ++ decimal(parent.count) ++ ".",
the parent's count is incremented exactly once per spawn and the child's
count starts at 0; and any two sibling ids spawned from the same context
are distinct and neither is a string prefix of the other. -/
theorem sibling_ids_distinct (p : HydrationContext) (i j : ℕ) (hij : i ≠ j) :
    (nextHydrateContext p).1.id = p.id ++ natToDec p.count ++ ['.'] ∧
    (nextHydrateContext p).1.count = 0 ∧
    (nextHydrateContext p).2.count = p.count + 1 ∧
    childId p i ≠ childId p j ∧
    strPre (childId p i) (childId p j) = false ∧
    strPre (childId p j) (childId p i) = false := by
  have key : ∀ a b : ℕ, a ≠ b → strPre (childId p a) (childId p b) = false := by
    intro a b hab
    rw [childId_eq, childId_eq, strPre_cancel]
    cases h : strPre (natToDec (p.count + a) ++ ['.']) (natToDec (p.count + b) ++ ['.']) with
    | false => rfl
    | true =>
      exfalso
      have heq := no_pre_dot _ _ (natToDec_digits _) (natToDec_digits _) h
      have := natToDec_inj heq
      omega
  refine ⟨rfl, rfl, rfl, ?_, key i j hij, key j i (fun h => hij h.symm)⟩
  intro h
  have h2 : strPre (childId p i) (childId p j) = true := by
    rw [h]
    exact strPre_refl _
  rw [key i j hij] at h2
  exact Bool.noConfusion h2

/-- C3 witness: concrete instantiation at a parent context with id "0."
and count 0, siblings 0 and 1. -/
theorem sibling_ids_distinct_witness :
    (0 : ℕ) ≠ 1 ∧
    (childId ⟨['0', '.'], 0, true, false⟩ 0 ≠ childId ⟨['0', '.'], 0, true, false⟩ 1 ∧
     strPre (childId ⟨['0', '.'], 0, true, false⟩ 0) (childId ⟨['0', '.'], 0, true, false⟩ 1) = false) :=
  ⟨by decide, (sibling_ids_distinct ⟨['0', '.'], 0, true, false⟩ 0 1 (by decide)).2.2.2.1,
    (sibling_ids_distinct ⟨['0', '.'], 0, true, false⟩ 0 1 (by decide)).2.2.2.2.1⟩

/-- C4 (code bug demonstration): createComponent has no try/finally, so
when the component throws while a hydration context is active, the
process-wide context slot is left holding the freshly spawned child
context (here id "0.0.") instead of being restored to the caller's
context (id "0."): after the exception propagates, sharedConfig.context
differs from its value on entry. -/
theorem createComponent_throw_leaves_child_context :
    createComponent boomComp (some ⟨['0', '.'], 0, true, false⟩) =
      (Except.error "boom", some ⟨['0', '.', '0', '.'], 0, true, false⟩) ∧
    (createComponent boomComp (some ⟨['0', '.'], 0, true, false⟩)).2 ≠
      some ⟨['0', '.'], 0, true, false⟩ := by
  constructor
  · rfl
  · intro h
    simp [createComponent, boomComp, nextHydrateContext] at h

lemma resStep_preserves_loading (r : ResourceState) (e : ResEvent)
    (h : r.loading = true) : (resStep r e).loading = true := by
  cases e with
  | load a s rv =>
    simp only [resStep]
    split_ifs <;> simp [h]
  | settle => simpa [resStep] using h

/-- C10: the reader's public loading flag starts false, is set to true by
any load call that reaches its producer (async or streaming pass, id not
already resolved), and is never reset afterward by any sequence of
further load calls or settlings — in particular it stays true after the
resource's value is stored. -/
theorem resource_loading_monotone :
    createResourceInit.loading = false ∧
    (∀ (a s rv : Bool) (r : ResourceState), (a || s) = true → rv = false →
      (resStep r (ResEvent.load a s rv)).loading = true) ∧
    (∀ (r : ResourceState) (evs : List ResEvent), r.loading = true →
      (resRun r evs).loading = true) ∧
    (∀ r : ResourceState, (resStep r ResEvent.settle).loading = r.loading) := by
  refine ⟨rfl, ?_, ?_, fun r => rfl⟩
  · intro a s rv r ha hrv
    subst hrv
    simp only [resStep]
    have h1 : ¬ (a = false ∧ s = false) := by
      rintro ⟨rfl, rfl⟩
      simp at ha
    rw [if_neg h1, if_neg (by simp)]
  · intro r evs
    induction evs generalizing r with
    | nil => intro h; exact h
    | cons e es ih =>
      intro h
      exact ih _ (resStep_preserves_loading r e h)

/-- C10 witness: concrete load in an async pass followed by a settle. -/
theorem resource_loading_monotone_witness :
    (true || false) = true ∧ (false : Bool) = false ∧
    (resStep createResourceInit (ResEvent.load true false false)).loading = true ∧
    (resRun { loading := true, stored := false } [ResEvent.settle]).loading = true :=
  ⟨rfl, rfl, resource_loading_monotone.2.1 true false false createResourceInit rfl rfl,
   resource_loading_monotone.2.2.1 { loading := true, stored := false } [ResEvent.settle] rfl⟩

lemma BInv_init (regs : Finset ℕ) : BInv (initBoundary regs) := by
  unfold BInv initBoundary
  refine ⟨Finset.empty_subset _, by simp, ?_, ?_⟩
  · split_ifs <;> simp
  · split_ifs with h <;> simp [h]

lemma BInv_step {s : BoundaryState} {e : BEvent} (hs : BInv s) (he : validEvent s e) :
    BInv (resolveStep s e.i e.newRegs) := by
  obtain ⟨hsub, hcc, hd1, hiff⟩ := hs
  obtain ⟨hmem, hnot, -⟩ := he
  have hcard : (insert e.i s.resolvedIds).card = s.resolvedIds.card + 1 :=
    Finset.card_insert_of_not_mem hnot
  have hdone0 : s.doneCount = 0 := by
    rcases Nat.lt_or_ge s.doneCount 1 with h | h
    · omega
    · exfalso
      have h1 : s.doneCount = 1 := by omega
      have h2 : s.completedCount = s.resources.card := hiff.1 h1
      have h3 : s.resolvedIds = s.resources :=
        Finset.eq_of_subset_of_card_le hsub (by omega)
      rw [← h3] at hmem
      exact hnot hmem
  unfold BInv resolveStep
  split_ifs with h1 h2
  · exact ⟨Finset.insert_subset_iff.2 ⟨Finset.mem_union_left _ hmem,
        hsub.trans Finset.subset_union_left⟩,
      by simp [hcard, hcc], by simp [hdone0], by simp [hdone0, h2]⟩
  · exact ⟨Finset.insert_subset_iff.2 ⟨Finset.mem_union_left _ hmem,
        hsub.trans Finset.subset_union_left⟩,
      by simp [hcard, hcc], by simp [hdone0], by simp [hdone0, h2]⟩
  · exact ⟨Finset.insert_subset_iff.2 ⟨hmem, hsub⟩,
      by simp [hcard, hcc], by simp [hdone0], by simp [hdone0, h1]⟩

lemma BInv_trace : ∀ (evs : List BEvent) (s : BoundaryState), validTrace s evs → BInv s →
    BInv (runTrace s evs) := by
  intro evs
  induction evs with
  | nil => intro s _ hs; exact hs
  | cons e es ih => intro s hv hs; exact ih _ hv.2 (BInv_step hs hv.1)

/-- C1: along any valid resolution trace of a boundary — including traces
in which the completed callback's re-render registers further resources —
the done signal has fired exactly as many times as 0 or 1, it has fired
(once) precisely when completedCount equals the size of the resources
set, and having fired it can never fire again, since firing forces every
registered resource to be resolved and a valid trace can then contain no
further event. -/
theorem suspense_fan_in_once (regs : Finset ℕ) (evs : List BEvent)
    (h : validTrace (initBoundary regs) evs) :
    (runTrace (initBoundary regs) evs).doneCount ≤ 1 ∧
    ((runTrace (initBoundary regs) evs).doneCount = 1 ↔
      (runTrace (initBoundary regs) evs).completedCount =
        (runTrace (initBoundary regs) evs).resources.card) := by
  have hinv := BInv_trace evs (initBoundary regs) h (BInv_init regs)
  exact ⟨hinv.2.2.1, hinv.2.2.2⟩

/-- C1 witness: boundary starting with resources 0 and 1; resolving 1
triggers a re-render pass that registers resource 2, and done fires only
at the final resolution. -/
theorem suspense_fan_in_once_witness :
    validTrace (initBoundary {0, 1}) [⟨0, ∅⟩, ⟨1, {2}⟩, ⟨2, ∅⟩] ∧
    ((runTrace (initBoundary {0, 1}) [⟨0, ∅⟩, ⟨1, {2}⟩, ⟨2, ∅⟩]).doneCount ≤ 1 ∧
     ((runTrace (initBoundary {0, 1}) [⟨0, ∅⟩, ⟨1, {2}⟩, ⟨2, ∅⟩]).doneCount = 1 ↔
       (runTrace (initBoundary {0, 1}) [⟨0, ∅⟩, ⟨1, {2}⟩, ⟨2, ∅⟩]).completedCount =
         (runTrace (initBoundary {0, 1}) [⟨0, ∅⟩, ⟨1, {2}⟩, ⟨2, ∅⟩]).resources.card)) :=
  ⟨by decide, suspense_fan_in_once {0, 1} [⟨0, ∅⟩, ⟨1, {2}⟩, ⟨2, ∅⟩] (by decide)⟩

/-- C5 counterexample: a boundary with two registered resources, both of
which resolve. The completed callback runs once (at the second, fan-in
meeting resolution), not once per resolution: completedCalls is 1, not 2. -/
theorem completed_not_every_resolution :
    validTrace (initBoundary {0, 1}) [⟨0, ∅⟩, ⟨1, ∅⟩] ∧
    (runTrace (initBoundary {0, 1}) [⟨0, ∅⟩, ⟨1, ∅⟩]).completedCalls = 1 ∧
    (runTrace (initBoundary {0, 1}) [⟨0, ∅⟩, ⟨1, ∅⟩]).completedCalls ≠ 2 := by
  decide

lemma resolveStep_calls (s : BoundaryState) (i : ℕ) (nr : Finset ℕ) :
    (resolveStep s i nr).completedCalls =
      s.completedCalls + (if s.completedCount + 1 = s.resources.card then 1 else 0) := by
  unfold resolveStep
  split_ifs <;> simp

/-- C5 amended: the completed callback is invoked exactly at those
resolutions whose incremented completedCount equals the current
resources.size — the fan-in condition is checked on every resolution but
completed runs only when it holds. -/
theorem completed_calls_fan_in_only (s : BoundaryState) (evs : List BEvent) :
    (runTrace s evs).completedCalls = s.completedCalls + countFire s evs := by
  induction evs generalizing s with
  | nil => simp [runTrace, countFire]
  | cons e es ih =>
    show (runTrace (resolveStep s e.i e.newRegs) es).completedCalls = _
    rw [ih]
    rw [resolveStep_calls]
    simp only [countFire]
    omega

lemma takeWhile_all_stop (p : Char → Bool) : ∀ (xs : List Char) (y : Char) (ys : List Char),
    (∀ c ∈ xs, p c = true) → p y = false → List.takeWhile p (xs ++ y :: ys) = xs := by
  intro xs
  induction xs with
  | nil => intro y ys _ hy; simp [List.takeWhile_cons, hy]
  | cons x t ih =>
    intro y ys hall hy
    have hx : p x = true := hall x (List.mem_cons_self _ _)
    simp [List.takeWhile_cons, hx, ih y ys (fun c hc => hall c (List.mem_cons_of_mem _ hc)) hy]

lemma dropWhile_all_stop (p : Char → Bool) : ∀ (xs : List Char) (y : Char) (ys : List Char),
    (∀ c ∈ xs, p c = true) → p y = false → List.dropWhile p (xs ++ y :: ys) = y :: ys := by
  intro xs
  induction xs with
  | nil => intro y ys _ hy; simp [List.dropWhile_cons, hy]
  | cons x t ih =>
    intro y ys hall hy
    have hx : p x = true := hall x (List.mem_cons_self _ _)
    simp [List.dropWhile_cons, hx, ih y ys (fun c hc => hall c (List.mem_cons_of_mem _ hc)) hy]

lemma mem_takeWhile (p : Char → Bool) : ∀ (l : List Char) (c : Char),
    c ∈ l.takeWhile p → p c = true := by
  intro l
  induction l with
  | nil => intro c hc; simp at hc
  | cons x t ih =>
    intro c hc
    by_cases hx : p x = true
    · rw [List.takeWhile_cons, if_pos hx] at hc
      rcases List.mem_cons.1 hc with rfl | hc'
      · exact hx
      · exact ih c hc'
    · rw [List.takeWhile_cons, if_neg hx] at hc
      simp at hc

lemma matchAt_tok (id rest : List Char) (h1 : id ≠ []) (h2 : ∀ c ∈ id, isIdChar c = true) :
    matchAt (tokChars id ++ rest) = some (id, rest) := by
  have hsharp : isIdChar '#' = false := by decide
  have htw : List.takeWhile isIdChar (id ++ '#' :: '>' :: rest) = id :=
    takeWhile_all_stop isIdChar id '#' ('>' :: rest) h2 hsharp
  have hdw : List.dropWhile isIdChar (id ++ '#' :: '>' :: rest) = '#' :: '>' :: rest :=
    dropWhile_all_stop isIdChar id '#' ('>' :: rest) h2 hsharp
  have hshape : tokChars id ++ rest = '<' :: '#' :: (id ++ '#' :: '>' :: rest) := by
    simp [tokChars]
  rw [hshape]
  simp only [matchAt, htw, hdw]
  simp [h1]

lemma matchAt_some : ∀ {s i r : List Char}, matchAt s = some (i, r) →
    s = '<' :: '#' :: (i ++ '#' :: '>' :: r) ∧ i ≠ [] ∧ ∀ c ∈ i, isIdChar c = true := by
  intro s i r h
  match s with
  | [] => exact absurd h (by simp [matchAt])
  | [a] => exact absurd h (by simp [matchAt])
  | a :: b :: rest =>
    simp only [matchAt] at h
    by_cases hab : a = '<' ∧ b = '#' ∧ rest.takeWhile isIdChar ≠ []
    · rw [if_pos hab] at h
      match hd : rest.dropWhile isIdChar with
      | [] => rw [hd] at h; exact absurd h (by simp)
      | [c] => rw [hd] at h; exact absurd h (by simp)
      | c :: d :: r2 =>
        rw [hd] at h
        dsimp only at h
        by_cases hcd : c = '#' ∧ d = '>'
        · rw [if_pos hcd] at h
          have hi : rest.takeWhile isIdChar = i ∧ r2 = r := by
            have := Option.some.inj h
            exact ⟨congrArg Prod.fst this, congrArg Prod.snd this⟩
          obtain ⟨hi1, hi2⟩ := hi
          obtain ⟨rfl, rfl, h3⟩ := hab
          refine ⟨?_, by rw [← hi1]; exact h3, ?_⟩
          · have hrest : rest = rest.takeWhile isIdChar ++ rest.dropWhile isIdChar :=
              (List.takeWhile_append_dropWhile (p := isIdChar) (l := rest)).symm
            rw [hrest, hi1, hd, hcd.1, hcd.2, hi2]
          · intro c' hc'
            rw [← hi1] at hc'
            exact mem_takeWhile isIdChar rest c' hc'
        · rw [if_neg hcd] at h
          exact absurd h (by simp)
    · rw [if_neg hab] at h
      exact absurd h (by simp)

lemma matchAt_none_of_head {c : Char} (l : List Char) (h : c ≠ '<') :
    matchAt (c :: l) = none := by
  cases l with
  | nil => rfl
  | cons b rest =>
    simp only [matchAt]
    rw [if_neg]
    rintro ⟨h1, -⟩
    exact h h1

lemma findTok_append_lit : ∀ (s x : List Char), (∀ c ∈ s, c ≠ '<') →
    findTok (s ++ x) =
      match findTok x with
      | some (p, i, r) => some (s ++ p, i, r)
      | none => none := by
  intro s
  induction s with
  | nil =>
    intro x _
    cases hf : findTok x with
    | none => simp [hf]
    | some t => obtain ⟨p, i, r⟩ := t; simp [hf]
  | cons a s' ih =>
    intro x hall
    have ha : a ≠ '<' := hall a (List.mem_cons_self _ _)
    have hm : matchAt (a :: (s' ++ x)) = none := matchAt_none_of_head _ ha
    show findTok (a :: (s' ++ x)) = _
    simp only [findTok, hm]
    rw [ih x (fun c hc => hall c (List.mem_cons_of_mem _ hc))]
    cases hf : findTok x with
    | none => simp
    | some t => obtain ⟨p, i, r⟩ := t; simp

lemma findTok_tok (id rest : List Char) (h1 : id ≠ []) (h2 : ∀ c ∈ id, isIdChar c = true) :
    findTok (tokChars id ++ rest) = some ([], id, rest) := by
  have hm := matchAt_tok id rest h1 h2
  have hshape : tokChars id ++ rest = '<' :: ('#' :: ((id ++ ['#', '>']) ++ rest)) := by
    simp [tokChars]
  rw [hshape] at hm ⊢
  simp only [findTok, hm]

lemma findTok_no_lt : ∀ s : List Char, (∀ c ∈ s, c ≠ '<') → findTok s = none := by
  intro s
  induction s with
  | nil => intro _; rfl
  | cons c cs ih =>
    intro h
    have hm : matchAt (c :: cs) = none :=
      matchAt_none_of_head _ (h c (List.mem_cons_self _ _))
    simp only [findTok, hm]
    rw [ih (fun c' hc' => h c' (List.mem_cons_of_mem _ hc'))]

lemma flat_append : ∀ A B : List Seg, flat (A ++ B) = flat A ++ flat B := by
  intro A B
  induction A with
  | nil => rfl
  | cons g r ih => cases g <;> simp [flat, ih]

lemma toks_append : ∀ A B : List Seg, toks (A ++ B) = toks A ++ toks B := by
  intro A B
  induction A with
  | nil => rfl
  | cons g r ih => cases g <;> simp [toks, ih]

lemma wfL_append_left {A B : List Seg} (h : wfL (A ++ B)) : wfL A :=
  fun g hg => h g (List.mem_append_left _ hg)

lemma wfL_append_right {A B : List Seg} (h : wfL (A ++ B)) : wfL B :=
  fun g hg => h g (List.mem_append_right _ hg)

lemma wfL_append {A B : List Seg} (hA : wfL A) (hB : wfL B) : wfL (A ++ B) := by
  intro g hg
  rcases List.mem_append.1 hg with h | h
  · exact hA g h
  · exact hB g h

lemma splitFirstTok_none : ∀ L : List Seg, splitFirstTok L = none ↔ toks L = [] := by
  intro L
  induction L with
  | nil => simp [splitFirstTok, toks]
  | cons g r ih =>
    cases g with
    | lit s =>
      simp only [splitFirstTok, toks]
      cases hsp : splitFirstTok r with
      | none => simpa [hsp] using ih
      | some t => obtain ⟨P, id, R⟩ := t; simpa [hsp] using ih
    | tok id => simp [splitFirstTok, toks]

lemma splitFirstTok_some : ∀ (L P : List Seg) (id : List Char) (R : List Seg),
    splitFirstTok L = some (P, id, R) → L = P ++ Seg.tok id :: R ∧ toks P = [] := by
  intro L
  induction L with
  | nil => intro P id R h; simp [splitFirstTok] at h
  | cons g r ih =>
    intro P id R h
    cases g with
    | lit s =>
      simp only [splitFirstTok] at h
      cases hsp : splitFirstTok r with
      | none => rw [hsp] at h; simp at h
      | some t =>
        obtain ⟨P', id', R'⟩ := t
        rw [hsp] at h
        simp only [Option.some.injEq, Prod.mk.injEq] at h
        obtain ⟨hP, hid, hR⟩ := h
        obtain ⟨h1, h2⟩ := ih P' id' R' hsp
        subst hid hR
        rw [← hP, h1]
        exact ⟨rfl, by simp [toks, h2]⟩
    | tok id' =>
      simp only [splitFirstTok, Option.some.injEq, Prod.mk.injEq] at h
      obtain ⟨hP, hid, hR⟩ := h
      subst hid hR
      rw [← hP]
      exact ⟨rfl, rfl⟩

lemma findTok_flat : ∀ L : List Seg, wfL L →
    findTok (flat L) =
      match splitFirstTok L with
      | some (P, id, R) => some (flat P, id, flat R)
      | none => none := by
  intro L
  induction L with
  | nil => intro _; rfl
  | cons g r ih =>
    intro hwf
    have hr : wfL r := fun g' hg' => hwf g' (List.mem_cons_of_mem _ hg')
    cases g with
    | lit s =>
      have hs : ∀ c ∈ s, c ≠ '<' := hwf (Seg.lit s) (List.mem_cons_self _ _)
      show findTok (s ++ flat r) = _
      rw [findTok_append_lit s (flat r) hs, ih hr]
      cases hsp : splitFirstTok r with
      | none => simp [splitFirstTok, hsp]
      | some t => obtain ⟨P, id, R⟩ := t; simp [splitFirstTok, hsp, flat]
    | tok id =>
      have hid : segWF (Seg.tok id) := hwf (Seg.tok id) (List.mem_cons_self _ _)
      show findTok (tokChars id ++ flat r) = _
      rw [findTok_tok id (flat r) hid.1 hid.2]
      simp [splitFirstTok, flat]

lemma specExpand_append (C : List (List Char × List Seg)) (n : ℕ) (A B : List Seg) :
    specExpand C n (A ++ B) = specExpand C n A ++ specExpand C n B := by
  induction A generalizing n with
  | nil => simp [specExpand]
  | cons g A' ih =>
    cases g with
    | lit s => simp [specExpand, ih]
    | tok id =>
      cases n with
      | zero => simp [specExpand, ih]
      | succ n => simp [specExpand, ih]

lemma specExpand_no_toks (C : List (List Char × List Seg)) (n : ℕ) :
    ∀ L : List Seg, toks L = [] → specExpand C n L = flat L := by
  intro L
  induction L with
  | nil => intro _; simp [specExpand, flat]
  | cons g r ih =>
    intro h
    cases g with
    | lit s =>
      simp only [toks] at h
      simp [specExpand, flat, ih h]
    | tok id => simp [toks] at h

lemma assocFind_mem {α : Type} : ∀ (l : List (List Char × α)) (id : List Char) (v : α),
    assocFind l id = some v → (id, v) ∈ l := by
  intro l
  induction l with
  | nil => intro id v h; simp [assocFind] at h
  | cons p r ih =>
    intro id v h
    simp only [assocFind] at h
    split_ifs at h with hp
    · obtain ⟨k, w⟩ := p
      simp only at hp
      subst hp
      obtain rfl := Option.some.inj h
      exact List.mem_cons_self _ _
    · exact List.mem_cons_of_mem _ (ih id v h)

lemma lookupC_wf {C : List (List Char × List Seg)} (hC : ∀ p ∈ C, wfL p.2) (id : List Char) :
    wfL (lookupC C id) := by
  unfold lookupC
  cases hf : assocFind C id with
  | some F => exact hC (id, F) (assocFind_mem C id F hf)
  | none =>
    intro g hg
    rw [List.mem_singleton.1 hg]
    decide

lemma lookupC_toks_rank {C : List (List Char × List Seg)} {rk : List Char → ℕ}
    (hrk : ∀ p ∈ C, ∀ id ∈ toks p.2, rk id < rk p.1) (id : List Char) :
    ∀ id' ∈ toks (lookupC C id), rk id' < rk id := by
  unfold lookupC
  cases hf : assocFind C id with
  | some F => exact fun id' h => hrk (id, F) (assocFind_mem C id F hf) id' h
  | none => intro id' h; simp [toks] at h

lemma lookupC_toks_len {C : List (List Char × List Seg)} {B : ℕ}
    (hB : ∀ p ∈ C, (toks p.2).length ≤ B) (id : List Char) :
    (toks (lookupC C id)).length ≤ B := by
  unfold lookupC
  cases hf : assocFind C id with
  | some F => exact hB (id, F) (assocFind_mem C id F hf)
  | none => simp [toks]

lemma wt_append (rk : List Char → ℕ) (B : ℕ) (A Bl : List Seg) :
    wt rk B (A ++ Bl) = wt rk B A + wt rk B Bl := by
  simp [wt, toks_append]

lemma wt_cons_tok (rk : List Char → ℕ) (B : ℕ) (id : List Char) (R : List Seg) :
    wt rk B (Seg.tok id :: R) = (B + 1) ^ rk id + wt rk B R := by
  simp [wt, toks]

lemma wt_no_toks {rk : List Char → ℕ} {B : ℕ} {L : List Seg} (h : toks L = []) :
    wt rk B L = 0 := by
  simp [wt, h]

lemma wt_lookup_lt {C : List (List Char × List Seg)} {rk : List Char → ℕ} {B : ℕ}
    (hrk : ∀ p ∈ C, ∀ id ∈ toks p.2, rk id < rk p.1)
    (hB : ∀ p ∈ C, (toks p.2).length ≤ B) (id : List Char) :
    wt rk B (lookupC C id) < (B + 1) ^ rk id := by
  have hlen := lookupC_toks_len hB id
  have hlt := lookupC_toks_rank hrk id
  cases hr : rk id with
  | zero =>
    cases htF : toks (lookupC C id) with
    | nil => simp [wt, htF]
    | cons t ts =>
      have := hlt t (by rw [htF]; exact List.mem_cons_self _ _)
      omega
  | succ rr =>
    have hball : ∀ x ∈ (toks (lookupC C id)).map (fun i => (B + 1) ^ rk i),
        x ≤ (B + 1) ^ rr := by
      intro x hx
      rcases List.mem_map.1 hx with ⟨i, hi, rfl⟩
      have h1 : rk i < rk id := hlt i hi
      exact Nat.pow_le_pow_right (by omega) (by omega)
    have h1 := List.sum_le_card_nsmul _ _ hball
    have h2 : wt rk B (lookupC C id) ≤ (toks (lookupC C id)).length * (B + 1) ^ rr := by
      simpa [wt, smul_eq_mul] using h1
    have hp : 0 < (B + 1) ^ rr := pow_pos (by omega) rr
    calc wt rk B (lookupC C id) ≤ (toks (lookupC C id)).length * (B + 1) ^ rr := h2
      _ ≤ B * (B + 1) ^ rr := Nat.mul_le_mul_right _ hlen
      _ < (B + 1) * (B + 1) ^ rr := by
          have hs : (B + 1) * (B + 1) ^ rr = B * (B + 1) ^ rr + (B + 1) ^ rr := by ring
          omega
      _ = (B + 1) ^ (rr + 1) := by rw [pow_succ]; exact Nat.mul_comm _ _

lemma specExpand_fuel {C : List (List Char × List Seg)} {rk : List Char → ℕ}
    (hrk : ∀ p ∈ C, ∀ id ∈ toks p.2, rk id < rk p.1) :
    ∀ (n : ℕ) (L : List Seg), (∀ id ∈ toks L, rk id < n) →
      specExpand C n L = specExpand C (n + 1) L := by
  intro n
  induction n using Nat.strong_induction_on with
  | _ n ihn =>
    intro L
    induction L with
    | nil => intro _; simp [specExpand]
    | cons g r ihr =>
      intro hb
      cases g with
      | lit s =>
        have hr := ihr (fun id h => hb id (by simp [toks, h]))
        simp [specExpand, hr]
      | tok id =>
        have hid : rk id < n := hb id (by simp [toks])
        cases n with
        | zero => omega
        | succ m =>
          have h1 : specExpand C m (lookupC C id) = specExpand C (m + 1) (lookupC C id) := by
            apply ihn m (by omega)
            intro id' h'
            have := lookupC_toks_rank hrk id id' h'
            omega
          have h2 := ihr (fun id' h' => hb id' (by simp [toks, h']))
          simp only [specExpand]
          rw [h1, h2]

lemma specExpand_fuel_ge {C : List (List Char × List Seg)} {rk : List Char → ℕ}
    (hrk : ∀ p ∈ C, ∀ id ∈ toks p.2, rk id < rk p.1) :
    ∀ {n m : ℕ}, n ≤ m → ∀ L : List Seg, (∀ id ∈ toks L, rk id < n) →
      specExpand C n L = specExpand C m L := by
  intro n m hnm
  induction hnm with
  | refl => intro L _; rfl
  | @step m' hm ih =>
    intro L hb
    rw [ih L hb]
    exact specExpand_fuel hrk m' L (fun id hid => lt_of_lt_of_le (hb id hid) hm)

lemma specExpand_no_lt {C : List (List Char × List Seg)} {rk : List Char → ℕ}
    (hrk : ∀ p ∈ C, ∀ id ∈ toks p.2, rk id < rk p.1) (hC : ∀ p ∈ C, wfL p.2) :
    ∀ (n : ℕ) (L : List Seg), wfL L → (∀ id ∈ toks L, rk id < n) →
      ∀ c ∈ specExpand C n L, c ≠ '<' := by
  intro n
  induction n using Nat.strong_induction_on with
  | _ n ihn =>
    intro L
    induction L with
    | nil => intro _ _ c hc; simp [specExpand] at hc
    | cons g r ihr =>
      intro hwf hb
      have hwr : wfL r := fun g' hg' => hwf g' (List.mem_cons_of_mem _ hg')
      cases g with
      | lit s =>
        have hs : ∀ c ∈ s, c ≠ '<' := hwf (Seg.lit s) (List.mem_cons_self _ _)
        intro c hc
        rw [show specExpand C n (Seg.lit s :: r) = s ++ specExpand C n r from by
          simp [specExpand]] at hc
        rcases List.mem_append.1 hc with h | h
        · exact hs c h
        · exact ihr hwr (fun id hid => hb id (by simp [toks, hid])) c h
      | tok id =>
        have hid : rk id < n := hb id (by simp [toks])
        cases n with
        | zero => omega
        | succ m =>
          intro c hc
          rw [show specExpand C (m + 1) (Seg.tok id :: r) =
              specExpand C m (lookupC C id) ++ specExpand C (m + 1) r from by
            simp [specExpand]] at hc
          rcases List.mem_append.1 hc with h | h
          · refine ihn m (by omega) (lookupC C id) (lookupC_wf hC id) ?_ c h
            intro id' h'
            have := lookupC_toks_rank hrk id id' h'
            omega
          · exact ihr hwr (fun id' h' => hb id' (by simp [toks, h'])) c h

lemma cacheGet_cacheOf (C : List (List Char × List Seg)) (id : List Char) :
    cacheGet (cacheOf C) id = flat (lookupC C id) := by
  unfold cacheGet lookupC cacheOf
  induction C with
  | nil => simp [assocFind, flat, undefChars]
  | cons p r ih =>
    obtain ⟨k, F⟩ := p
    by_cases hk : k = id
    · subst hk
      simp [assocFind]
    · simp only [List.map_cons, assocFind, if_neg hk]
      exact ih

lemma substLoop_spec (C : List (List Char × List Seg)) (rk : List Char → ℕ) (B N : ℕ)
    (hC : ∀ p ∈ C, wfL p.2)
    (hrk : ∀ p ∈ C, ∀ id ∈ toks p.2, rk id < rk p.1)
    (hB : ∀ p ∈ C, (toks p.2).length ≤ B) :
    ∀ (fuel : ℕ) (L : List Seg) (final : List Char), wfL L →
      (∀ id ∈ toks L, rk id < N) → wt rk B L < fuel →
      substLoop (cacheOf C) fuel final (flat L) = some (final ++ specExpand C N L) := by
  intro fuel
  induction fuel with
  | zero => intro L final _ _ h; omega
  | succ f ih =>
    intro L final hwf hbnd hwt
    have hft := findTok_flat L hwf
    cases hsp : splitFirstTok L with
    | none =>
      rw [hsp] at hft
      have htoks : toks L = [] := (splitFirstTok_none L).1 hsp
      simp only [substLoop, hft]
      rw [specExpand_no_toks C N L htoks]
    | some t =>
      obtain ⟨P, id, R⟩ := t
      rw [hsp] at hft
      obtain ⟨hL, hPt⟩ := splitFirstTok_some L P id R hsp
      subst hL
      have htoksL : toks (P ++ Seg.tok id :: R) = id :: toks R := by
        rw [toks_append, hPt]
        rfl
      have hidN : rk id < N := hbnd id (by rw [htoksL]; exact List.mem_cons_self _ _)
      have hbndR : ∀ id' ∈ toks R, rk id' < N := fun id' h' =>
        hbnd id' (by rw [htoksL]; exact List.mem_cons_of_mem _ h')
      have hwfP : wfL P := wfL_append_left hwf
      have hwfR : wfL R := fun g hg =>
        hwf g (List.mem_append_right _ (List.mem_cons_of_mem _ hg))
      have hwf' : wfL (lookupC C id ++ R) := wfL_append (lookupC_wf hC id) hwfR
      have hbnd' : ∀ id' ∈ toks (lookupC C id ++ R), rk id' < N := by
        intro id' h'
        rw [toks_append] at h'
        rcases List.mem_append.1 h' with h | h
        · have := lookupC_toks_rank hrk id id' h
          omega
        · exact hbndR id' h
      have hwt' : wt rk B (lookupC C id ++ R) < f := by
        have h1 : wt rk B (P ++ Seg.tok id :: R) =
            (B + 1) ^ rk id + wt rk B R := by
          rw [wt_append, wt_no_toks hPt, wt_cons_tok]
          omega
        have h2 := wt_lookup_lt hrk hB id
        rw [wt_append]
        omega
      simp only [substLoop, hft]
      rw [cacheGet_cacheOf, ← flat_append]
      rw [ih (lookupC C id ++ R) (final ++ flat P) hwf' hbnd' hwt']
      have hexp : specExpand C N (P ++ Seg.tok id :: R) =
          flat P ++ specExpand C N (lookupC C id ++ R) := by
        rw [specExpand_append, specExpand_no_toks C N P hPt]
        cases N with
        | zero => omega
        | succ N' =>
          have h3 : specExpand C N' (lookupC C id) = specExpand C (N' + 1) (lookupC C id) := by
            apply specExpand_fuel hrk N'
            intro id' h'
            have := lookupC_toks_rank hrk id id' h'
            omega
          rw [specExpand_append]
          simp only [specExpand]
          rw [h3]
      rw [hexp, List.append_assoc]

lemma subst_cycle_aux : ∀ (fuel : ℕ) (final : List Char),
    substLoop (cacheOf [(['1'], [Seg.tok ['1']])]) fuel final (tokChars ['1']) = none := by
  intro fuel
  induction fuel with
  | zero => intro final; rfl
  | succ f ih =>
    intro final
    have hft : findTok (tokChars ['1']) = some ([], ['1'], []) := by decide
    have hcg : cacheGet (cacheOf [(['1'], [Seg.tok ['1']])]) ['1'] = tokChars ['1'] := by decide
    simp only [substLoop, hft, hcg, List.append_nil]
    exact ih final

/-- C2 counterexample: a cache in which every token id occurring in the
root or in any cached fragment has a cache entry, yet the substitution
pass never terminates — the fragment cached for id 1 is the token for id
1 itself, so the loop re-matches the same token forever. -/
theorem subst_cyclic_cache_diverges :
    (∀ id ∈ toks [Seg.tok ['1']], (assocFind [(['1'], [Seg.tok ['1']])] id).isSome = true) ∧
    (∀ p ∈ [(['1'], [Seg.tok ['1']])], ∀ id ∈ toks p.2,
      (assocFind [(['1'], [Seg.tok ['1']])] id).isSome = true) ∧
    ¬ substTerminates (cacheOf [(['1'], [Seg.tok ['1']])]) (flat [Seg.tok ['1']]) := by
  refine ⟨by decide, by decide, ?_⟩
  rintro ⟨fuel, out, h⟩
  have hfl : flat [Seg.tok ['1']] = tokChars ['1'] := by decide
  rw [hfl, subst_cycle_aux fuel []] at h
  exact Option.noConfusion h

/-- C2 amended: for a root string and fragment cache presented as
well-formed markup segments (literals free of the opening angle bracket
plus whole placeholder tokens), in which every token id occurring in the
root or in a cached fragment has a cache entry and the cache's
token-dependency relation is acyclic — witnessed by a rank function that
decreases from each cache key to the tokens of its fragment — the
driver's substitution pass terminates and produces a string containing
zero placeholder tokens, equal to the left-to-right transitive expansion
specExpand of the root. -/
theorem subst_complete_acyclic (C : List (List Char × List Seg)) (rk : List Char → ℕ)
    (B N : ℕ) (L : List Seg)
    (hC : ∀ p ∈ C, wfL p.2)
    (hrk : ∀ p ∈ C, ∀ id ∈ toks p.2, rk id < rk p.1)
    (hB : ∀ p ∈ C, (toks p.2).length ≤ B)
    (hall1 : ∀ id ∈ toks L, (assocFind C id).isSome = true)
    (hall2 : ∀ p ∈ C, ∀ id ∈ toks p.2, (assocFind C id).isSome = true)
    (hL : wfL L) (hN : ∀ id ∈ toks L, rk id < N) :
    ∃ fuel out, substLoop (cacheOf C) fuel [] (flat L) = some out ∧
      findTok out = none ∧ out = specExpand C N L := by
  refine ⟨wt rk B L + 1, specExpand C N L, ?_, ?_, rfl⟩
  · have h := substLoop_spec C rk B N hC hrk hB (wt rk B L + 1) L [] hL hN (by omega)
    simpa using h
  · exact findTok_no_lt _ (specExpand_no_lt hrk hC N L hL hN)

/-- C2 witness: root "A" ++ token 1, cache 1 ↦ "x" ++ token 2 and
2 ↦ "y"; the pass terminates with the fully expanded string. -/
theorem subst_complete_acyclic_witness :
    (∀ p ∈ [(['1'], [Seg.lit ['x'], Seg.tok ['2']]), (['2'], [Seg.lit ['y']])], wfL p.2) ∧
    (∀ id ∈ toks [Seg.lit ['A'], Seg.tok ['1']],
      (assocFind [(['1'], [Seg.lit ['x'], Seg.tok ['2']]), (['2'], [Seg.lit ['y']])] id).isSome
        = true) ∧
    (∃ fuel out,
      substLoop (cacheOf [(['1'], [Seg.lit ['x'], Seg.tok ['2']]), (['2'], [Seg.lit ['y']])])
        fuel [] (flat [Seg.lit ['A'], Seg.tok ['1']]) = some out ∧
      findTok out = none ∧
      out = specExpand [(['1'], [Seg.lit ['x'], Seg.tok ['2']]), (['2'], [Seg.lit ['y']])] 2
        [Seg.lit ['A'], Seg.tok ['1']]) :=
  ⟨by decide, by decide,
    subst_complete_acyclic _ (fun id => if id = ['1'] then 1 else 0) 1 2 _
      (by decide) (by decide) (by decide) (by decide) (by decide) (by decide) (by decide)⟩

/-- C6 counterexample: a token whose id was never registered does not
make the substitution loop run forever — at the concrete input the token
for id 5 with an empty cache, the loop terminates after one substitution,
with the token replaced by the text "undefined". -/
theorem missing_id_token_terminates :
    assocFind ([] : List (List Char × List Char)) ['5'] = none ∧
    substLoop [] 2 [] (tokChars ['5']) = some undefChars := by
  decide

/-- C6 amended: when a matched token's id has no cache entry, the pass
does not loop: the missing entry coerces to the text "undefined", which
is spliced in place of the token, and substitution still terminates with
the expansion that maps the unregistered id to "undefined". -/
theorem subst_missing_id_undefined (C : List (List Char × List Seg)) (rk : List Char → ℕ)
    (B N : ℕ) (L : List Seg) (id0 : List Char)
    (hC : ∀ p ∈ C, wfL p.2)
    (hrk : ∀ p ∈ C, ∀ id ∈ toks p.2, rk id < rk p.1)
    (hB : ∀ p ∈ C, (toks p.2).length ≤ B)
    (hL : wfL L) (hN : ∀ id ∈ toks L, rk id < N)
    (h0 : assocFind C id0 = none) (hmem : Seg.tok id0 ∈ L) :
    ∃ fuel out, substLoop (cacheOf C) fuel [] (flat L) = some out ∧
      out = specExpand C N L ∧
      (∀ n : ℕ, specExpand C (n + 1) [Seg.tok id0] = undefChars) := by
  refine ⟨wt rk B L + 1, specExpand C N L, ?_, rfl, ?_⟩
  · have h := substLoop_spec C rk B N hC hrk hB (wt rk B L + 1) L [] hL hN (by omega)
    simpa using h
  · intro n
    simp [specExpand, lookupC, h0]

/-- C6 witness: root token 5 ++ "y" with a cache holding only id 2. -/
theorem subst_missing_id_undefined_witness :
    assocFind [(['2'], [Seg.lit ['x']])] ['5'] = none ∧
    (∃ fuel out, substLoop (cacheOf [(['2'], [Seg.lit ['x']])]) fuel []
        (flat [Seg.tok ['5'], Seg.lit ['y']]) = some out ∧
      out = specExpand [(['2'], [Seg.lit ['x']])] 1 [Seg.tok ['5'], Seg.lit ['y']] ∧
      (∀ n : ℕ, specExpand [(['2'], [Seg.lit ['x']])] (n + 1) [Seg.tok ['5']] = undefChars)) :=
  ⟨by decide, subst_missing_id_undefined _ (fun _ => 0) 0 1 _ ['5']
    (by decide) (by decide) (by decide) (by decide) (by decide) (by decide) (by decide)⟩

lemma isIdChar_of_digit {c : Char} (h : c.isDigit = true) : isIdChar c = true := by
  simp [isIdChar, h]

/-- C9: a pending async Suspense boundary returns exactly the object
wrapping the literal text < # id # > built from the boundary id
ctx.id ++ decimal(ctx.count); that id is a nonempty string of digits and
dots whenever the context id is, the driver's matcher accepts the emitted
token (capturing exactly the id), and the matcher accepts exactly the
strings headed by this delimiter pair with a nonempty digits-and-dots id. -/
theorem suspense_token_format_matched (ctx : HydrationContext) (fallback : String)
    (childOut : SSRNode) (regs : ℕ) (hasync : ctx.async = true) (hpend : regs ≠ 0)
    (hid : ∀ c ∈ ctx.id, isIdChar c = true) :
    (Suspense ctx fallback childOut regs).output =
      SSRNode.obj (SSRNode.str (String.mk (tokChars (ctx.id ++ natToDec ctx.count)))) ∧
    resolveSSRNode (Suspense ctx fallback childOut regs).output =
      String.mk (tokChars (ctx.id ++ natToDec ctx.count)) ∧
    (ctx.id ++ natToDec ctx.count ≠ [] ∧
      ∀ c ∈ ctx.id ++ natToDec ctx.count, isIdChar c = true) ∧
    findTok (tokChars (ctx.id ++ natToDec ctx.count)) =
      some ([], ctx.id ++ natToDec ctx.count, []) ∧
    (∀ s i r : List Char, matchAt s = some (i, r) ↔
      (s = '<' :: '#' :: (i ++ '#' :: '>' :: r) ∧ i ≠ [] ∧ ∀ c ∈ i, isIdChar c = true)) := by
  have hout : Suspense ctx fallback childOut regs =
      { output := SSRNode.obj (SSRNode.str (String.mk (tokChars (ctx.id ++ natToDec ctx.count)))),
        childrenEvaluated := true, doneSignal := none } := by
    unfold Suspense
    rw [if_neg (by rw [hasync]; exact Bool.noConfusion), if_neg hpend]
  have hne : ctx.id ++ natToDec ctx.count ≠ [] := by
    intro h
    exact natToDec_ne_nil ctx.count (List.append_eq_nil.1 h).2
  have hchars : ∀ c ∈ ctx.id ++ natToDec ctx.count, isIdChar c = true := by
    intro c hc
    rcases List.mem_append.1 hc with h | h
    · exact hid c h
    · exact isIdChar_of_digit (natToDec_digits ctx.count c h)
  refine ⟨by rw [hout], by rw [hout]; simp [resolveSSRNode], ⟨hne, hchars⟩, ?_, ?_⟩
  · have h := findTok_tok (ctx.id ++ natToDec ctx.count) [] hne hchars
    simpa using h
  · intro s i r
    constructor
    · exact matchAt_some
    · rintro ⟨rfl, h1, h2⟩
      have hshape : '<' :: '#' :: (i ++ '#' :: '>' :: r) = tokChars i ++ r := by
        simp [tokChars]
      rw [hshape]
      exact matchAt_tok i r h1 h2

/-- C9 witness: context with id "0." and count 1, a pending boundary. -/
theorem suspense_token_format_matched_witness :
    (⟨['0', '.'], 1, true, false⟩ : HydrationContext).async = true ∧ (1 : ℕ) ≠ 0 ∧
    ((Suspense ⟨['0', '.'], 1, true, false⟩ "fb" SSRNode.null 1).output =
      SSRNode.obj (SSRNode.str (String.mk (tokChars
        ((['0', '.'] : List Char) ++ natToDec 1)))) ∧
     findTok (tokChars ((['0', '.'] : List Char) ++ natToDec 1)) =
      some ([], (['0', '.'] : List Char) ++ natToDec 1, [])) :=
  ⟨rfl, by decide,
    (suspense_token_format_matched ⟨['0', '.'], 1, true, false⟩ "fb" SSRNode.null 1
      rfl (by decide) (by decide)).1,
    (suspense_token_format_matched ⟨['0', '.'], 1, true, false⟩ "fb" SSRNode.null 1
      rfl (by decide) (by decide)).2.2.2.1⟩

/-- C8 counterexample: in a streaming, non-async context Suspense returns
the fallback but does evaluate the children (the streaming short-circuit
at rendering.ts line 329 runs before the non-async return at line 330),
contradicting the claim that the guarded subtree is never evaluated in
non-async mode. -/
theorem suspense_streaming_nonasync_renders_children :
    (Suspense ⟨['0', '.'], 0, false, true⟩ "fb" (SSRNode.str "kids") 0).output =
      SSRNode.str "fb" ∧
    (Suspense ⟨['0', '.'], 0, false, true⟩ "fb" (SSRNode.str "kids") 0).childrenEvaluated
      = true :=
  ⟨rfl, rfl⟩

/-- C8 amended: whenever the hydration context is not in async mode,
Suspense returns props.fallback and never fires the done signal; the
children are evaluated exactly when streaming mode is on (the streaming
short-circuit), and otherwise not at all. -/
theorem suspense_non_async_fallback (ctx : HydrationContext) (fallback : String)
    (childOut : SSRNode) (regs : ℕ) (h : ctx.async = false) :
    (Suspense ctx fallback childOut regs).output = SSRNode.str fallback ∧
    (Suspense ctx fallback childOut regs).childrenEvaluated = ctx.streaming ∧
    (Suspense ctx fallback childOut regs).doneSignal = none := by
  unfold Suspense
  rw [if_pos h]
  exact ⟨rfl, rfl, rfl⟩

/-- C8 witness: non-async, non-streaming context — fallback returned and
the children not evaluated. -/
theorem suspense_non_async_fallback_witness :
    (⟨['0', '.'], 0, false, false⟩ : HydrationContext).async = false ∧
    ((Suspense ⟨['0', '.'], 0, false, false⟩ "fb" (SSRNode.str "kids") 3).output =
       SSRNode.str "fb" ∧
     (Suspense ⟨['0', '.'], 0, false, false⟩ "fb" (SSRNode.str "kids") 3).childrenEvaluated =
       (⟨['0', '.'], 0, false, false⟩ : HydrationContext).streaming) :=
  ⟨rfl,
    (suspense_non_async_fallback ⟨['0', '.'], 0, false, false⟩ "fb" (SSRNode.str "kids") 3 rfl).1,
    (suspense_non_async_fallback ⟨['0', '.'], 0, false, false⟩ "fb" (SSRNode.str "kids") 3
      rfl).2.1⟩

/-- C7 counterexample: when the registry stays empty the promise resolves
with the raw value res() the thunk returned, not with its rendered string
form — here the thunk's output is the object wrapping "x", and the
resolved value is that object, which is not the markup string "x". -/
theorem awaitSuspense_immediate_raw_value :
    awaitSuspenseSync ⟨SSRNode.obj (SSRNode.str "x"), []⟩ =
      DriverOutcome.resolvedNow (SSRNode.obj (SSRNode.str "x")) ∧
    SSRNode.obj (SSRNode.str "x") ≠
      SSRNode.str (resolveSSRNode (SSRNode.obj (SSRNode.str "x"))) := by
  refine ⟨rfl, ?_⟩
  intro h
  exact SSRNode.noConfusion h

/-- C7 amended: if the thunk registered no boundary, the promise resolves
immediately, in the same turn, with the thunk's output value unchanged
(no substitution pass runs); in particular, when that output is a string
the promise resolves with exactly that rendered markup string. -/
theorem awaitSuspense_empty_registry_immediate (run : DriverRun)
    (h : run.registered = []) :
    awaitSuspenseSync run = DriverOutcome.resolvedNow run.output ∧
    (∀ s : String, run.output = SSRNode.str s →
      awaitSuspenseSync run =
        DriverOutcome.resolvedNow (SSRNode.str (resolveSSRNode run.output))) := by
  constructor
  · unfold awaitSuspenseSync
    rw [if_pos h]
  · intro s hs
    unfold awaitSuspenseSync
    rw [if_pos h, hs]
    simp [resolveSSRNode]

/-- C7 witness: a thunk run producing the plain string "hi" with no
registrations resolves at once with that string. -/
theorem awaitSuspense_empty_registry_immediate_witness :
    (⟨SSRNode.str "hi", []⟩ : DriverRun).registered = [] ∧
    awaitSuspenseSync ⟨SSRNode.str "hi", []⟩ =
      DriverOutcome.resolvedNow (⟨SSRNode.str "hi", []⟩ : DriverRun).output :=
  ⟨rfl, (awaitSuspense_empty_registry_immediate ⟨SSRNode.str "hi", []⟩ rfl).1⟩
